import Mathlib

set_option maxRecDepth 1000000

/-!
A shallow embedding of the record-matching engine of `diffbib` (`src/index.js`).

Modelling conventions:
* JavaScript strings are modelled as Lean `String`s (sequences of Unicode scalar
  values); `s.length` models JS `.length` (they agree on strings without astral
  characters, the intended inputs).
* A bibliographic record (a flat JS object) is an association list from field
  names to string values; `jsGet` models property access returning
  `undefined` (`none`) for absent fields.
* `crypto.createHash('sha256').update(s, 'utf8').digest('hex')` is modelled by
  `sha256Hex`, a full FIPS 180-4 SHA-256 over the UTF-8 bytes of the string,
  with machine words as `Nat` reduced mod `2^32`.
* The `leven` package computes the unit-cost Levenshtein distance; it is
  modelled by Mathlib's `levenshtein Levenshtein.defaultCost`.
* The floating-point comparison `newLeven / max > SIMILARITY_RATE` is modelled
  over `ℚ` (`mkRat newLeven max > mkRat 3 10`): for the integer operand sizes
  reachable here (numerators and denominators far below 2^52) the rational
  comparison and the IEEE double comparison agree.
* Fallible JavaScript code (property access on `undefined`, `leven` applied to
  `undefined`) is modelled in `Except Unit`: `.error ()` is a thrown
  `TypeError`.
-/

/-- Decidable equality of `Except` results, for concrete evaluations. -/
instance exceptDecEq {e a : Type} [DecidableEq e] [DecidableEq a] :
    DecidableEq (Except e a) :=
  fun x y =>
    match x, y with
    | .error u, .error v =>
        if h : u = v then .isTrue (by rw [h])
        else .isFalse (by intro hh; cases hh; exact h rfl)
    | .ok u, .ok v =>
        if h : u = v then .isTrue (by rw [h])
        else .isFalse (by intro hh; cases hh; exact h rfl)
    | .error _, .ok _ => .isFalse (by intro hh; cases hh)
    | .ok _, .error _ => .isFalse (by intro hh; cases hh)

namespace Diffbib

/-! ### 32-bit words as `Nat` mod `2^32`, and SHA-256 (FIPS 180-4) -/

/-- Truncate to a 32-bit word. -/
def w32 (n : Nat) : Nat := n % 4294967296

/-- Right rotation of a 32-bit word. -/
def rotr (k x : Nat) : Nat := w32 ((x >>> k) ||| (x <<< (32 - k)))

/-- SHA-256 `Ch` function; `4294967295 ^^^ x` is bitwise complement on 32 bits. -/
def sha256Ch (x y z : Nat) : Nat := (x &&& y) ^^^ ((4294967295 ^^^ x) &&& z)

/-- SHA-256 `Maj` function. -/
def sha256Maj (x y z : Nat) : Nat := (x &&& y) ^^^ (x &&& z) ^^^ (y &&& z)

/-- SHA-256 `Σ₀`. -/
def bigSigma0 (x : Nat) : Nat := rotr 2 x ^^^ rotr 13 x ^^^ rotr 22 x

/-- SHA-256 `Σ₁`. -/
def bigSigma1 (x : Nat) : Nat := rotr 6 x ^^^ rotr 11 x ^^^ rotr 25 x

/-- SHA-256 `σ₀`. -/
def smallSigma0 (x : Nat) : Nat := rotr 7 x ^^^ rotr 18 x ^^^ (x >>> 3)

/-- SHA-256 `σ₁`. -/
def smallSigma1 (x : Nat) : Nat := rotr 17 x ^^^ rotr 19 x ^^^ (x >>> 10)

/-- The 64 SHA-256 round constants (FIPS 180-4 §4.2.2, in decimal). -/
def K256 : List Nat :=
  [1116352408, 1899447441, 3049323471, 3921009573, 961987163, 1508970993,
   2453635748, 2870763221, 3624381080, 310598401, 607225278, 1426881987,
   1925078388, 2162078206, 2614888103, 3248222580, 3835390401, 4022224774,
   264347078, 604807628, 770255983, 1249150122, 1555081692, 1996064986,
   2554220882, 2821834349, 2952996808, 3210313671, 3336571891, 3584528711,
   113926993, 338241895, 666307205, 773529912, 1294757372, 1396182291,
   1695183700, 1986661051, 2177026350, 2456956037, 2730485921, 2820302411,
   3259730800, 3345764771, 3516065817, 3600352804, 4094571909, 275423344,
   430227734, 506948616, 659060556, 883997877, 958139571, 1322822218,
   1537002063, 1747873779, 1955562222, 2024104815, 2227730452, 2361852424,
   2428436474, 2756734187, 3204031479, 3329325298]

/-- The eight SHA-256 initial state words (FIPS 180-4 §5.3.3, in decimal). -/
def H256 : List Nat :=
  [1779033703, 3144134277, 1013904242, 2773480762,
   1359893119, 2600822924, 528734635, 1541459225]

/-- Big-endian byte serialization of `n` on `k` bytes. -/
def beBytes : Nat → Nat → List Nat
  | 0, _ => []
  | k + 1, n => beBytes k (n / 256) ++ [n % 256]

/-- SHA-256 message padding: append `0x80`, zeros to 56 mod 64, and the
64-bit big-endian bit length. -/
def padMessage (msg : List Nat) : List Nat :=
  msg ++ [0x80] ++ List.replicate ((64 - ((msg.length + 9) % 64)) % 64) 0 ++
    beBytes 8 (8 * msg.length)

/-- Split a byte list into 64-byte blocks (`acc` holds the current block,
reversed). The padded message length is a multiple of 64, so the final
`acc` is empty. -/
def chunk64 (acc : List Nat) : List Nat → List (List Nat)
  | [] => if acc.isEmpty then [] else [acc.reverse]
  | b :: rest =>
      if acc.length = 63 then (acc.reverse ++ [b]) :: chunk64 [] rest
      else chunk64 (b :: acc) rest

/-- Group bytes into big-endian 32-bit words. -/
def bytesToWords : List Nat → List Nat
  | b0 :: b1 :: b2 :: b3 :: rest =>
      (b0 * 16777216 + b1 * 65536 + b2 * 256 + b3) :: bytesToWords rest
  | _ => []

/-- Extend a 16-word block to the 64-word message schedule (`k` is the number
of words still to produce, 48 at the top level). -/
def buildSchedule (ws : List Nat) : Nat → List Nat
  | 0 => ws
  | k + 1 =>
      let n := ws.length
      buildSchedule
        (ws ++ [w32 (smallSigma1 (ws.getD (n - 2) 0) + ws.getD (n - 7) 0 +
                     smallSigma0 (ws.getD (n - 15) 0) + ws.getD (n - 16) 0)])
        k

/-- One SHA-256 round: rotate the 8-word state with `T₁`/`T₂`, where `kw`
is the pair (schedule word, round constant). -/
def compressStep (st : List Nat) (kw : Nat × Nat) : List Nat :=
  match st with
  | [a, b, c, d, e, f, g, h] =>
      let t1 := w32 (h + bigSigma1 e + sha256Ch e f g + kw.2 + kw.1)
      let t2 := w32 (bigSigma0 a + sha256Maj a b c)
      [w32 (t1 + t2), a, b, c, w32 (d + t1), e, f, g]
  | other => other

/-- Process the blocks of a padded message, starting from state `hs`. -/
def processBlocks (hs : List Nat) : List (List Nat) → List Nat
  | [] => hs
  | blk :: rest =>
      let ws := buildSchedule (bytesToWords blk) 48
      let st := (ws.zip K256).foldl compressStep hs
      processBlocks (List.zipWith (fun a b => w32 (a + b)) hs st) rest

/-- SHA-256 of a byte sequence, as the list of the 8 final 32-bit state words. -/
def sha256Words (msg : List Nat) : List Nat :=
  processBlocks H256 (chunk64 [] (padMessage msg))

/-- The lowercase hexadecimal digits. -/
def hexAlphabet : List Char := "0123456789abcdef".data

/-- One hexadecimal digit character. -/
def hexDigit (n : Nat) : Char := hexAlphabet.getD n '0'

/-- Fixed-width lowercase hexadecimal rendering of `n` on `k` digits. -/
def toHexFixed : Nat → Nat → List Char
  | 0, _ => []
  | k + 1, n => toHexFixed k (n / 16) ++ [hexDigit (n % 16)]

/-- UTF-8 encoding of one Unicode scalar value, as bytes. -/
def utf8EncodeCharNat (c : Char) : List Nat :=
  let n := c.toNat
  if n < 0x80 then [n]
  else if n < 0x800 then [0xc0 + n / 64, 0x80 + n % 64]
  else if n < 0x10000 then [0xe0 + n / 4096, 0x80 + (n / 64) % 64, 0x80 + n % 64]
  else [0xf0 + n / 0x40000, 0x80 + (n / 4096) % 64, 0x80 + (n / 64) % 64, 0x80 + n % 64]

/-- UTF-8 bytes of a string (models `update(str, 'utf8')`). -/
def utf8Bytes (s : String) : List Nat := s.data.flatMap utf8EncodeCharNat

/-- `hash(str)` of `src/index.js`: hex-encoded SHA-256 of the UTF-8 bytes. -/
def sha256Hex (s : String) : String :=
  ⟨(sha256Words (utf8Bytes s)).flatMap (toHexFixed 8)⟩

/-! ### Records and the field normalizer -/

/-- One bibliographic record: a flat JS object, i.e. an association list from
field names to string values (properties are unique in a JS object; the
embedding quantifies over arbitrary association lists and reads the first
binding, as JS property lookup is single-valued). -/
abbrev Record := List (String × String)

/-- JS property access `el[field]`: `none` models `undefined`. -/
def jsGet (el : Record) (field : String) : Option String :=
  (el.find? (fun p => p.1 == field)).map (·.2)

/-- `el[field] || ''`: both `undefined` and `''` (the only falsy string)
yield `''`. -/
def jsGetD (el : Record) (field : String) : String :=
  (jsGet el field).getD ""

/-- `normalizeFields` of `src/index.js`: `'key'` passes through unchanged,
every other field name is upper-cased (`String.toUpper` models
`.toUpperCase()`, faithful on the ASCII field names in use). -/
def normalizeFields (fields : List String) : List String :=
  fields.map (fun field => if field == "key" then field else field.toUpper)

/-! ### The exact-match ("hash") strategy -/

/-- `getKey(el, fields)`: join the (defaulted) field values with `'###'` and
hash. -/
def getKey (el : Record) (fields : List String) : String :=
  sha256Hex (String.intercalate "###" (fields.map (fun field => jsGetD el field)))

/-- A JS object used as a lookup table: fingerprint-keyed entries in
first-insertion key order (JS string-keyed property iteration order; the
64-hex-digit keys are never array indices). -/
abbrev Table := List (String × Record)

/-- `table[key] = el`: overwrite in place if the key exists (last write wins,
key keeps its original position), else append. -/
def tableInsert (t : Table) (k : String) (v : Record) : Table :=
  if t.any (fun p => p.1 == k) then
    t.map (fun p => if p.1 == k then (p.1, v) else p)
  else
    t ++ [(k, v)]

/-- `buildLookupTable(list, fields)` of `src/index.js`. -/
def buildLookupTable (list : List Record) (fields : List String) : Table :=
  list.foldl (fun t el => tableInsert t (getKey el fields) el) []

/-- `table[key]` read access on a lookup table. -/
def tableGet (t : Table) (k : String) : Option Record :=
  (t.find? (fun p => p.1 == k)).map (·.2)

/-- The fingerprints of a table, in iteration order. -/
def tableKeys (t : Table) : List String := t.map (·.1)

/-- The three-bucket diff result (`AB` = Common, `OnlyA` = OnlyOrigin,
`OnlyB` = OnlyDestiny). -/
structure Status where
  AB : List Record
  OnlyA : List Record
  OnlyB : List Record
deriving DecidableEq, Repr

/-- `hashStrategy(fields, origBib, destBib)` of `src/index.js`: iterate A's
table in key order, bucketing by presence in B's table; then B's table,
keeping the fingerprints absent from A. -/
def hashStrategy (fields : List String) (origBib destBib : List Record) : Status :=
  let listA := buildLookupTable origBib fields
  let listB := buildLookupTable destBib fields
  { AB := (listA.filter (fun p => (tableGet listB p.1).isSome)).map (·.2)
    OnlyA := (listA.filter (fun p => !(tableGet listB p.1).isSome)).map (·.2)
    OnlyB := (listB.filter (fun p => !(tableGet listA p.1).isSome)).map (·.2) }

/-! ### The approximate-match ("bruteforce") strategy -/

/-- `SIMILARITY_RATE = 0.3`. `mkRat 3 10` is the exact rational 3/10; see the
header note on float faithfulness. -/
def SIMILARITY_RATE : ℚ := mkRat 3 10

/-- `leven(a, b)` on two defined strings: unit-cost Levenshtein distance. -/
def levDist (a b : String) : Nat :=
  levenshtein Levenshtein.defaultCost a.data b.data

/-- `leven(element[field], el[field])` — `leven` applied to possibly-missing
values: two `undefined`s compare `===` and return 0; one `undefined` throws
(`.length` access inside `leven`). -/
def jsLeven (a b : Option String) : Except Unit Nat :=
  match a, b with
  | some x, some y => .ok (levDist x y)
  | none, none => .ok 0
  | _, _ => .error ()

/-- `element[field].length || 1`: throws on `undefined`, and an empty string's
length 0 is replaced by 1. -/
def jsLenOr1 (a : Option String) : Except Unit Nat :=
  match a with
  | some s => .ok (if s.length = 0 then 1 else s.length)
  | none => .error ()

/-- `Math.max(element[field].length || 1, el[field].length || 1)`. -/
def jsMaxLen (element el : Record) (field : String) : Except Unit Nat := do
  let a ← jsLenOr1 (jsGet element field)
  let b ← jsLenOr1 (jsGet el field)
  pure (max a b)

/-- The similarity ratio `newLeven / max` as an exact rational. -/
def similarity (newLeven maxLen : Nat) : ℚ := mkRat newLeven maxLen

/-- The candidate state of `findSmallestSimilar`: `none` while
`smallest === undefined`, otherwise the current best candidate together with
the single cached entry of `computedLeven` (`computedLeven` is rebuilt as a
one-entry object `{[field]: newLeven}` exactly when `smallest` is replaced). -/
abbrev SearchState := Option (Record × String × Nat)

/-- The inner field loop for a candidate `el` while `smallest === undefined`:
the first compared field either fails the threshold (`break`, state
unchanged) or adopts `el` (`break`). Later fields are never reached. -/
def tryCandidateFirst (element el : Record) : List String → Except Unit SearchState
  | [] => .ok none
  | field :: _ => do
      let newLeven ← jsLeven (jsGet element field) (jsGet el field)
      let m ← jsMaxLen element el field
      if similarity newLeven m > SIMILARITY_RATE then
        pure none
      else
        pure (some (el, field, newLeven))

/-- `computedLeven[field] || leven(element[field], smallest[field])`: the
cached distance is used only when the cached field matches and the cached
value is nonzero (`0` is falsy in JS); otherwise the distance to the current
best `sm` is (re)computed, which can throw. -/
def currentLeven (element sm : Record) (cf : String) (cd : Nat)
    (field : String) : Except Unit Nat :=
  if cf == field && cd != 0 then pure cd
  else jsLeven (jsGet element field) (jsGet sm field)

/-- The inner field loop for a candidate `el` with current best `sm` (cached
distance `cd` for field `cf`): threshold failure or a strictly worse distance
rejects `el`; a strictly better distance adopts `el`; a tie moves to the next
field (falling off the end keeps `sm`). -/
def tryCandidate (element el sm : Record) (cf : String) (cd : Nat) :
    List String → Except Unit (Record × String × Nat)
  | [] => .ok (sm, cf, cd)
  | field :: rest => do
      let newLeven ← jsLeven (jsGet element field) (jsGet el field)
      let m ← jsMaxLen element el field
      if similarity newLeven m > SIMILARITY_RATE then
        pure (sm, cf, cd)
      else do
        let currLeven ← currentLeven element sm cf cd field
        if newLeven > currLeven then pure (sm, cf, cd)
        else if currLeven > newLeven then pure (el, field, newLeven)
        else tryCandidate element el sm cf cd rest

/-- One iteration of the outer candidate loop: dispatch on whether a best
candidate exists yet. -/
def searchStep (element : Record) (fields : List String) (el : Record) :
    SearchState → Except Unit SearchState
  | none => tryCandidateFirst element el fields
  | some (sm, cf, cd) => do
      let r ← tryCandidate element el sm cf cd fields
      pure (some r)

/-- The outer candidate loop of `findSmallestSimilar`, threading the search
state. -/
def searchLoop (element : Record) (fields : List String) :
    List Record → SearchState → Except Unit SearchState
  | [], st => .ok st
  | el :: rest, st => do
      let st' ← searchStep element fields el st
      searchLoop element fields rest st'

/-- `findSmallestSimilar(element, fields, list)` of `src/index.js`:
`.ok none` models returning `undefined`, `.error ()` a thrown `TypeError`. -/
def findSmallestSimilar (element : Record) (fields : List String)
    (list : List Record) : Except Unit (Option Record) := do
  let st ← searchLoop element fields list none
  pure (st.map (·.1))

/-- The first loop of `bruteforceStrategy`: classify each origin record as
`AB` (a similar candidate exists) or `OnlyA`. -/
def classifyOrig (fields : List String) (destBib : List Record) :
    List Record → Except Unit (List Record × List Record)
  | [] => .ok ([], [])
  | el :: rest => do
      let similar ← findSmallestSimilar el fields destBib
      let (ab, onlyA) ← classifyOrig fields destBib rest
      match similar with
      | some _ => pure (el :: ab, onlyA)
      | none => pure (ab, el :: onlyA)

/-- The second loop of `bruteforceStrategy`: a destiny record goes to `OnlyB`
exactly when its search returns `undefined`; a destiny record that finds a
match is added to no bucket. -/
def classifyDest (fields : List String) (origBib : List Record) :
    List Record → Except Unit (List Record)
  | [] => .ok []
  | el :: rest => do
      let similar ← findSmallestSimilar el fields origBib
      let onlyB ← classifyDest fields origBib rest
      match similar with
      | none => pure (el :: onlyB)
      | some _ => pure onlyB

/-- `bruteforceStrategy(fields, origBib, destBib)` of `src/index.js`. -/
def bruteforceStrategy (fields : List String) (origBib destBib : List Record) :
    Except Unit Status := do
  let (ab, onlyA) ← classifyOrig fields destBib origBib
  let onlyB ← classifyDest fields origBib destBib
  pure { AB := ab, OnlyA := onlyA, OnlyB := onlyB }

/-- Whether `findSmallestSimilar` finds a match (a defined return value). -/
def foundMatch (fields : List String) (cands : List Record) (el : Record) : Bool :=
  match findSmallestSimilar el fields cands with
  | .ok (some _) => true
  | _ => false

/-- The threshold check of `findSmallestSimilar` on the first compared field of
a candidate: `.ok true` when the candidate passes (normalized distance not
above `SIMILARITY_RATE`), `.ok false` when it fails or there are no fields. -/
def firstFieldPasses (element el : Record) : List String → Except Unit Bool
  | [] => .ok false
  | field :: _ => do
      let newLeven ← jsLeven (jsGet element field) (jsGet el field)
      let m ← jsMaxLen element el field
      pure (!decide (similarity newLeven m > SIMILARITY_RATE))

/-- Every listed field is present (as a string) on the record. -/
def fieldsPresent (r : Record) (fields : List String) : Prop :=
  ∀ f ∈ fields, (jsGet r f).isSome = true

instance (r : Record) (fields : List String) : Decidable (fieldsPresent r fields) :=
  List.decidableBAll _ fields

/-! ### Helper lemmas: lookup tables -/

theorem any_key_iff (t : Table) (k : String) :
    (t.any (fun p => p.1 == k)) = true ↔ k ∈ tableKeys t := by
  rw [List.any_eq_true]
  constructor
  · rintro ⟨p, hp, he⟩
    exact List.mem_map.mpr ⟨p, hp, eq_of_beq he⟩
  · intro h
    obtain ⟨p, hp, he⟩ := List.mem_map.mp h
    exact ⟨p, hp, beq_iff_eq.mpr he⟩

theorem tableKeys_tableInsert (t : Table) (k : String) (v : Record) :
    tableKeys (tableInsert t k v) =
      if k ∈ tableKeys t then tableKeys t else tableKeys t ++ [k] := by
  unfold tableInsert
  by_cases hk : k ∈ tableKeys t
  · rw [if_pos ((any_key_iff t k).mpr hk), if_pos hk]
    unfold tableKeys
    rw [List.map_map]
    apply List.map_congr_left
    intro p _
    show (if p.1 == k then (p.1, v) else p).1 = p.1
    split <;> rfl
  · rw [if_neg (fun h => hk ((any_key_iff t k).mp h)), if_neg hk]
    unfold tableKeys
    rw [List.map_append]
    rfl

theorem mem_tableKeys_tableInsert (t : Table) (k k' : String) (v : Record) :
    k' ∈ tableKeys (tableInsert t k v) ↔ k' ∈ tableKeys t ∨ k' = k := by
  rw [tableKeys_tableInsert]
  by_cases hk : k ∈ tableKeys t
  · rw [if_pos hk]
    constructor
    · exact Or.inl
    · rintro (h | h)
      · exact h
      · exact h ▸ hk
  · rw [if_neg hk]
    simp

theorem tableKeys_nodup_tableInsert (t : Table) (k : String) (v : Record)
    (h : (tableKeys t).Nodup) : (tableKeys (tableInsert t k v)).Nodup := by
  rw [tableKeys_tableInsert]
  by_cases hk : k ∈ tableKeys t
  · rwa [if_pos hk]
  · rw [if_neg hk]
    rw [List.nodup_append]
    exact ⟨h, List.nodup_singleton k, by
      intro a ha hb
      rw [List.mem_singleton] at hb
      exact hk (hb ▸ ha)⟩

theorem tableKeys_nodup_foldl (fields : List String) (list : List Record) :
    ∀ t : Table, (tableKeys t).Nodup →
      (tableKeys (list.foldl (fun t el => tableInsert t (getKey el fields) el) t)).Nodup := by
  induction list with
  | nil => intro t ht; exact ht
  | cons el rest ih =>
      intro t ht
      exact ih _ (tableKeys_nodup_tableInsert t (getKey el fields) el ht)

theorem tableKeys_nodup (list : List Record) (fields : List String) :
    (tableKeys (buildLookupTable list fields)).Nodup :=
  tableKeys_nodup_foldl fields list [] List.nodup_nil

theorem mem_tableKeys_foldl (fields : List String) (list : List Record) :
    ∀ (t : Table) (k : String),
      k ∈ tableKeys (list.foldl (fun t el => tableInsert t (getKey el fields) el) t) ↔
        k ∈ tableKeys t ∨ k ∈ list.map (fun el => getKey el fields) := by
  induction list with
  | nil => intro t k; simp
  | cons el rest ih =>
      intro t k
      rw [List.foldl_cons, ih, mem_tableKeys_tableInsert]
      simp only [List.map_cons, List.mem_cons]
      tauto

theorem mem_tableKeys_buildLookupTable (list : List Record) (fields : List String)
    (k : String) :
    k ∈ tableKeys (buildLookupTable list fields) ↔
      k ∈ list.map (fun el => getKey el fields) := by
  rw [buildLookupTable, mem_tableKeys_foldl]
  simp [tableKeys]

theorem entry_key_tableInsert (t : Table) (v : Record) (k : String)
    (fields : List String) (hk : k = getKey v fields)
    (ht : ∀ p ∈ t, p.1 = getKey p.2 fields) :
    ∀ p ∈ tableInsert t k v, p.1 = getKey p.2 fields := by
  intro p hp
  unfold tableInsert at hp
  split at hp
  · obtain ⟨q, hq, hqe⟩ := List.mem_map.mp hp
    rw [← hqe]
    split
    next hqk => exact (eq_of_beq hqk).trans hk
    next => exact ht q hq
  · rcases List.mem_append.mp hp with h | h
    · exact ht p h
    · rw [List.mem_singleton] at h
      rw [h]
      exact hk

theorem entry_key_foldl (fields : List String) (list : List Record) :
    ∀ t : Table, (∀ p ∈ t, p.1 = getKey p.2 fields) →
      ∀ p ∈ list.foldl (fun t el => tableInsert t (getKey el fields) el) t,
        p.1 = getKey p.2 fields := by
  induction list with
  | nil => intro t ht; exact ht
  | cons el rest ih =>
      intro t ht
      exact ih _ (entry_key_tableInsert t el (getKey el fields) fields rfl ht)

theorem entry_key_buildLookupTable (list : List Record) (fields : List String) :
    ∀ p ∈ buildLookupTable list fields, p.1 = getKey p.2 fields := by
  apply entry_key_foldl
  intro p hp
  exact absurd hp (List.not_mem_nil p)

theorem tableGet_isSome_iff (t : Table) (k : String) :
    (tableGet t k).isSome = true ↔ k ∈ tableKeys t := by
  unfold tableGet tableKeys
  rw [Option.isSome_map']
  rw [List.find?_isSome]
  constructor
  · rintro ⟨p, hp, he⟩
    exact List.mem_map.mpr ⟨p, hp, eq_of_beq he⟩
  · intro h
    obtain ⟨p, hp, he⟩ := List.mem_map.mp h
    exact ⟨p, hp, beq_iff_eq.mpr he⟩

theorem tableGet_eq_none_iff (t : Table) (k : String) :
    tableGet t k = none ↔ k ∉ tableKeys t := by
  rw [← tableGet_isSome_iff]
  cases h : tableGet t k <;> simp

/-- The number of entries of `t` whose key occurs in `u` is the cardinality of
the intersection of the two key sets (keys of a table are distinct). -/
theorem filter_keyMem_length (t u : Table) (ht : (tableKeys t).Nodup) :
    (t.filter (fun p => (tableGet u p.1).isSome)).length =
      ((tableKeys t).toFinset ∩ (tableKeys u).toFinset).card := by
  rw [← List.countP_eq_length_filter]
  have h1 : t.countP (fun p => (tableGet u p.1).isSome) =
      (tableKeys t).countP (fun k => (tableGet u k).isSome) := by
    rw [tableKeys, List.countP_map]
    rfl
  rw [h1, List.countP_eq_length_filter]
  have h2 : ((tableKeys t).filter (fun k => (tableGet u k).isSome)).toFinset =
      (tableKeys t).toFinset ∩ (tableKeys u).toFinset := by
    ext k
    simp only [List.mem_toFinset, List.mem_filter, Finset.mem_inter]
    rw [tableGet_isSome_iff]
  rw [← h2]
  rw [List.toFinset_card_of_nodup (ht.filter _)]

/-- Both counts of common fingerprints agree: intersection is symmetric. -/
theorem common_count_symm (tA tB : Table) (hA : (tableKeys tA).Nodup)
    (hB : (tableKeys tB).Nodup) :
    (tB.filter (fun p => (tableGet tA p.1).isSome)).length =
      (tA.filter (fun p => (tableGet tB p.1).isSome)).length := by
  rw [filter_keyMem_length tB tA hB, filter_keyMem_length tA tB hA,
    Finset.inter_comm]

/-! ### Helper lemmas: the approximate-match search -/

theorem ok_bind {e a b : Type} (x : a) (f : a → Except e b) :
    ((Except.ok x : Except e a) >>= f) = f x := rfl

theorem except_bind_ok {e a b : Type} {x : Except e a} {f : a → Except e b}
    {r : b} (h : (x >>= f) = .ok r) : ∃ v, x = .ok v ∧ f v = .ok r := by
  cases x with
  | error err => exact absurd h (by simp [Bind.bind, Except.bind])
  | ok v => exact ⟨v, rfl, by simpa [Bind.bind, Except.bind] using h⟩

/-- A successful candidate pass keeps the old best or adopts the candidate. -/
theorem tryCandidate_range (element el sm : Record) (cf : String) (cd : Nat) :
    ∀ (flds : List String) (out : Record × String × Nat),
      tryCandidate element el sm cf cd flds = .ok out →
        out.1 = sm ∨ out.1 = el := by
  intro flds
  induction flds with
  | nil =>
      intro out h
      rw [show tryCandidate element el sm cf cd [] = .ok (sm, cf, cd) from rfl] at h
      cases h
      exact Or.inl rfl
  | cons field rest ih =>
      intro out h
      unfold tryCandidate at h
      obtain ⟨n, _, h⟩ := except_bind_ok h
      obtain ⟨m, _, h⟩ := except_bind_ok h
      split at h
      · cases h
        exact Or.inl rfl
      · obtain ⟨c, _, h⟩ := except_bind_ok h
        split at h
        · cases h
          exact Or.inl rfl
        · split at h
          · cases h
            exact Or.inr rfl
          · exact ih out h

/-- A successful first-candidate pass is decided by the threshold check on the
first compared field, and adopts the candidate itself if anything. -/
theorem tryCandidateFirst_spec (element el : Record) (flds : List String)
    (st' : SearchState) (h : tryCandidateFirst element el flds = .ok st') :
    firstFieldPasses element el flds = .ok st'.isSome ∧
    (∀ sm cf cd, st' = some (sm, cf, cd) → sm = el) := by
  cases flds with
  | nil =>
      rw [show tryCandidateFirst element el [] = .ok none from rfl] at h
      cases h
      exact ⟨rfl, fun sm cf cd hc => by cases hc⟩
  | cons field rest =>
      unfold tryCandidateFirst at h
      obtain ⟨n, hn, h⟩ := except_bind_ok h
      obtain ⟨m, hm, h⟩ := except_bind_ok h
      constructor
      · show (do
            let newLeven ← jsLeven (jsGet element field) (jsGet el field)
            let m ← jsMaxLen element el field
            pure (!decide (similarity newLeven m > SIMILARITY_RATE))) =
          Except.ok st'.isSome
        rw [hn, ok_bind, hm, ok_bind]
        split at h
        next hgt =>
          cases h
          rw [decide_eq_true hgt]
          rfl
        next hgt =>
          cases h
          rw [decide_eq_false hgt]
          rfl
      · intro sm cf cd hc
        split at h
        · cases h
          cases hc
        · cases h
          cases hc
          rfl

/-- The outer loop invariant: a successful search ends with no best candidate
exactly when it started with none and every candidate failed the first-field
threshold check; and any final best candidate came from the initial state or
the candidate list. -/
theorem searchLoop_spec (element : Record) (fields : List String) :
    ∀ (list : List Record) (st st' : SearchState),
      searchLoop element fields list st = .ok st' →
      ((st' = none) ↔ (st = none ∧
        ∀ el ∈ list, firstFieldPasses element el fields = .ok false)) ∧
      (∀ r : Record, (∃ c d, st' = some (r, c, d)) →
        (∃ c d, st = some (r, c, d)) ∨ r ∈ list) := by
  intro list
  induction list with
  | nil =>
      intro st st' h
      rw [show searchLoop element fields [] st = .ok st from rfl] at h
      cases h
      constructor
      · constructor
        · intro h0
          exact ⟨h0, fun el hel => absurd hel (List.not_mem_nil el)⟩
        · intro h0
          exact h0.1
      · intro r hr
        exact Or.inl hr
  | cons el rest ih =>
      intro st st' h
      unfold searchLoop at h
      obtain ⟨st₁, hst₁, hrest⟩ := except_bind_ok h
      obtain ⟨hiff, hrange⟩ := ih st₁ st' hrest
      cases st with
      | none =>
          have hfirst : tryCandidateFirst element el fields = .ok st₁ := hst₁
          clear hst₁
          obtain ⟨hffp, hadopt⟩ := tryCandidateFirst_spec element el fields st₁ hfirst
          constructor
          · constructor
            · intro h0
              obtain ⟨hst₁none, hall⟩ := hiff.mp h0
              refine ⟨rfl, ?_⟩
              intro e he
              rcases List.mem_cons.mp he with he | he
              · rw [hst₁none] at hffp
                rw [he]
                exact hffp
              · exact hall e he
            · rintro ⟨-, hall⟩
              have h1 : firstFieldPasses element el fields = .ok false :=
                hall el (List.mem_cons_self el rest)
              rw [h1] at hffp
              have hst₁none : st₁ = none := by
                cases hst₁val : st₁ with
                | none => rfl
                | some v =>
                    rw [hst₁val] at hffp
                    cases hffp
              exact hiff.mpr ⟨hst₁none, fun e he => hall e (List.mem_cons_of_mem el he)⟩
          · intro r hr
            rcases hrange r hr with hfrom | hmem
            · obtain ⟨c, d, hsome⟩ := hfrom
              right
              rw [hadopt r c d hsome]
              exact List.mem_cons_self el rest
            · exact Or.inr (List.mem_cons_of_mem el hmem)
      | some v =>
          obtain ⟨sm, cf, cd⟩ := v
          obtain ⟨out, hout, hst₁⟩ := except_bind_ok hst₁
          have hst₁some : st₁ = some out := by cases hst₁; rfl
          constructor
          · constructor
            · intro h0
              obtain ⟨hst₁none, -⟩ := hiff.mp h0
              rw [hst₁some] at hst₁none
              cases hst₁none
            · rintro ⟨hcontra, -⟩
              cases hcontra
          · intro r hr
            rcases hrange r hr with hfrom | hmem
            · obtain ⟨c, d, hsome⟩ := hfrom
              rw [hst₁some] at hsome
              have hout1 : out.1 = r := by
                cases hsome
                rfl
              rcases tryCandidate_range element el sm cf cd fields out hout with hs | he
              · exact Or.inl ⟨cf, cd, by rw [← hout1, hs]⟩
              · right
                rw [← hout1, he]
                exact List.mem_cons_self el rest
            · exact Or.inr (List.mem_cons_of_mem el hmem)

/-! ### Helper lemmas: totality of the search when fields are present -/

theorem jsLeven_ok_of_present {r₁ r₂ : Record} {f : String}
    (h1 : (jsGet r₁ f).isSome = true) (h2 : (jsGet r₂ f).isSome = true) :
    ∃ n, jsLeven (jsGet r₁ f) (jsGet r₂ f) = .ok n := by
  obtain ⟨v1, hv1⟩ := Option.isSome_iff_exists.mp h1
  obtain ⟨v2, hv2⟩ := Option.isSome_iff_exists.mp h2
  rw [hv1, hv2]
  exact ⟨levDist v1 v2, rfl⟩

theorem jsMaxLen_ok_of_present {r₁ r₂ : Record} {f : String}
    (h1 : (jsGet r₁ f).isSome = true) (h2 : (jsGet r₂ f).isSome = true) :
    ∃ m, jsMaxLen r₁ r₂ f = .ok m := by
  obtain ⟨v1, hv1⟩ := Option.isSome_iff_exists.mp h1
  obtain ⟨v2, hv2⟩ := Option.isSome_iff_exists.mp h2
  unfold jsMaxLen jsLenOr1
  rw [hv1, hv2]
  exact ⟨_, rfl⟩

theorem currentLeven_ok_of_present {element sm : Record} {cf : String} {cd : Nat}
    {f : String} (h1 : (jsGet element f).isSome = true)
    (h3 : (jsGet sm f).isSome = true) :
    ∃ c, currentLeven element sm cf cd f = .ok c := by
  unfold currentLeven
  split
  · exact ⟨cd, rfl⟩
  · exact jsLeven_ok_of_present h1 h3

theorem tryCandidate_total (element el sm : Record) (cf : String) (cd : Nat) :
    ∀ flds : List String, fieldsPresent element flds → fieldsPresent el flds →
      fieldsPresent sm flds →
      ∃ out, tryCandidate element el sm cf cd flds = .ok out := by
  intro flds
  induction flds with
  | nil => exact fun _ _ _ => ⟨(sm, cf, cd), rfl⟩
  | cons field rest ih =>
      intro h1 h2 h3
      obtain ⟨n, hn⟩ := jsLeven_ok_of_present
        (h1 field (List.mem_cons_self field rest)) (h2 field (List.mem_cons_self field rest))
      obtain ⟨m, hm⟩ := jsMaxLen_ok_of_present
        (h1 field (List.mem_cons_self field rest)) (h2 field (List.mem_cons_self field rest))
      unfold tryCandidate
      rw [hn, ok_bind, hm, ok_bind]
      split
      · exact ⟨_, rfl⟩
      · obtain ⟨c, hc⟩ := currentLeven_ok_of_present
          (h1 field (List.mem_cons_self field rest)) (h3 field (List.mem_cons_self field rest))
        rw [hc, ok_bind]
        split
        · exact ⟨_, rfl⟩
        · split
          · exact ⟨_, rfl⟩
          · exact ih (fun f hf => h1 f (List.mem_cons_of_mem field hf))
              (fun f hf => h2 f (List.mem_cons_of_mem field hf))
              (fun f hf => h3 f (List.mem_cons_of_mem field hf))

theorem tryCandidateFirst_total (element el : Record) (flds : List String)
    (h1 : fieldsPresent element flds) (h2 : fieldsPresent el flds) :
    ∃ st', tryCandidateFirst element el flds = .ok st' := by
  cases flds with
  | nil => exact ⟨none, rfl⟩
  | cons field rest =>
      obtain ⟨n, hn⟩ := jsLeven_ok_of_present
        (h1 field (List.mem_cons_self field rest)) (h2 field (List.mem_cons_self field rest))
      obtain ⟨m, hm⟩ := jsMaxLen_ok_of_present
        (h1 field (List.mem_cons_self field rest)) (h2 field (List.mem_cons_self field rest))
      refine ⟨if similarity n m > SIMILARITY_RATE then none else some (el, field, n), ?_⟩
      show (do
          let newLeven ← jsLeven (jsGet element field) (jsGet el field)
          let m ← jsMaxLen element el field
          if similarity newLeven m > SIMILARITY_RATE then pure none
          else pure (some (el, field, newLeven))) = Except.ok
        (if similarity n m > SIMILARITY_RATE then none else some (el, field, n))
      rw [hn, ok_bind, hm, ok_bind]
      by_cases hc : similarity n m > SIMILARITY_RATE
      · rw [if_pos hc, if_pos hc]
        rfl
      · rw [if_neg hc, if_neg hc]
        rfl

theorem searchLoop_total (element : Record) (fields : List String)
    (hel : fieldsPresent element fields) :
    ∀ (list : List Record) (st : SearchState),
      (∀ el ∈ list, fieldsPresent el fields) →
      (∀ sm cf cd, st = some (sm, cf, cd) → fieldsPresent sm fields) →
      ∃ st', searchLoop element fields list st = .ok st' := by
  intro list
  induction list with
  | nil => exact fun st _ _ => ⟨st, rfl⟩
  | cons el rest ih =>
      intro st hlist hst
      have hmemel := hlist el (List.mem_cons_self el rest)
      have hstep : ∃ st₁, searchStep element fields el st = .ok st₁ ∧
          (∀ sm cf cd, st₁ = some (sm, cf, cd) → fieldsPresent sm fields) := by
        cases st with
        | none =>
            obtain ⟨st₁, hst₁⟩ := tryCandidateFirst_total element el fields hel hmemel
            refine ⟨st₁, hst₁, ?_⟩
            intro sm cf cd hsome
            have := (tryCandidateFirst_spec element el fields st₁ hst₁).2 sm cf cd hsome
            rw [this]
            exact hmemel
        | some v =>
            obtain ⟨sm, cf, cd⟩ := v
            obtain ⟨out, hout⟩ := tryCandidate_total element el sm cf cd fields hel
              hmemel (hst sm cf cd rfl)
            refine ⟨some out, ?_, ?_⟩
            · show (do
                  let r ← tryCandidate element el sm cf cd fields
                  pure (some r)) = Except.ok (some out)
              rw [hout, ok_bind]
              rfl
            · intro sm' cf' cd' hsome
              have hout1 : out.1 = sm' := by cases hsome; rfl
              rcases tryCandidate_range element el sm cf cd fields out hout with hs | he
              · rw [← hout1, hs] at *
                exact hst sm cf cd rfl
              · rw [← hout1, he] at *
                exact hmemel
      obtain ⟨st₁, hst₁, hst₁pres⟩ := hstep
      obtain ⟨st', hst'⟩ := ih st₁ (fun e he => hlist e (List.mem_cons_of_mem el he)) hst₁pres
      refine ⟨st', ?_⟩
      unfold searchLoop
      rw [hst₁, ok_bind]
      exact hst'

theorem findSmallestSimilar_total (element : Record) (fields : List String)
    (list : List Record) (hel : fieldsPresent element fields)
    (hlist : ∀ el ∈ list, fieldsPresent el fields) :
    ∃ r, findSmallestSimilar element fields list = .ok r := by
  obtain ⟨st', hst'⟩ := searchLoop_total element fields hel list none hlist
    (fun sm cf cd h => by cases h)
  refine ⟨st'.map (·.1), ?_⟩
  unfold findSmallestSimilar
  rw [hst', ok_bind]
  rfl

theorem classifyOrig_total (fields : List String) (destBib : List Record)
    (hdest : ∀ r ∈ destBib, fieldsPresent r fields) :
    ∀ A : List Record, (∀ r ∈ A, fieldsPresent r fields) →
      ∃ out, classifyOrig fields destBib A = .ok out := by
  intro A
  induction A with
  | nil => exact fun _ => ⟨([], []), rfl⟩
  | cons el rest ih =>
      intro hA
      obtain ⟨r, hr⟩ := findSmallestSimilar_total el fields destBib
        (hA el (List.mem_cons_self el rest)) hdest
      obtain ⟨out, hout⟩ := ih (fun e he => hA e (List.mem_cons_of_mem el he))
      obtain ⟨ab, onlyA⟩ := out
      cases r with
      | none =>
          refine ⟨(ab, el :: onlyA), ?_⟩
          unfold classifyOrig
          rw [hr, ok_bind, hout, ok_bind]
          rfl
      | some m =>
          refine ⟨(el :: ab, onlyA), ?_⟩
          unfold classifyOrig
          rw [hr, ok_bind, hout, ok_bind]
          rfl

theorem classifyDest_total (fields : List String) (origBib : List Record)
    (horig : ∀ r ∈ origBib, fieldsPresent r fields) :
    ∀ B : List Record, (∀ r ∈ B, fieldsPresent r fields) →
      ∃ out, classifyDest fields origBib B = .ok out := by
  intro B
  induction B with
  | nil => exact fun _ => ⟨[], rfl⟩
  | cons el rest ih =>
      intro hB
      obtain ⟨r, hr⟩ := findSmallestSimilar_total el fields origBib
        (hB el (List.mem_cons_self el rest)) horig
      obtain ⟨out, hout⟩ := ih (fun e he => hB e (List.mem_cons_of_mem el he))
      cases r with
      | none =>
          refine ⟨el :: out, ?_⟩
          unfold classifyDest
          rw [hr, ok_bind, hout, ok_bind]
          rfl
      | some m =>
          refine ⟨out, ?_⟩
          unfold classifyDest
          rw [hr, ok_bind, hout, ok_bind]
          rfl

/-! ### Helper lemmas: characterizing the bruteforce buckets -/

theorem classifyOrig_ok (fields : List String) (destBib : List Record) :
    ∀ (A : List Record) (out : List Record × List Record),
      classifyOrig fields destBib A = .ok out →
      out.1 = A.filter (foundMatch fields destBib) ∧
      out.2 = A.filter (fun el => !foundMatch fields destBib el) := by
  intro A
  induction A with
  | nil =>
      intro out h
      rw [show classifyOrig fields destBib [] = .ok ([], []) from rfl] at h
      cases h
      exact ⟨rfl, rfl⟩
  | cons el rest ih =>
      intro out h
      unfold classifyOrig at h
      obtain ⟨similar, hsim, h⟩ := except_bind_ok h
      obtain ⟨restOut, hrest, h⟩ := except_bind_ok h
      obtain ⟨ab, onlyA⟩ := restOut
      obtain ⟨h1etal, h2etal⟩ := ih (ab, onlyA) hrest
      have h1 : ab = rest.filter (foundMatch fields destBib) := h1etal
      have h2 : onlyA = rest.filter (fun el => !foundMatch fields destBib el) := h2etal
      cases similar with
      | some m =>
          have hfm : foundMatch fields destBib el = true := by
            unfold foundMatch
            rw [hsim]
          cases h
          constructor <;> simp [List.filter_cons, hfm, h1, h2]
      | none =>
          have hfm : foundMatch fields destBib el = false := by
            unfold foundMatch
            rw [hsim]
          cases h
          constructor <;> simp [List.filter_cons, hfm, h1, h2]

theorem classifyDest_ok (fields : List String) (origBib : List Record) :
    ∀ (B : List Record) (out : List Record),
      classifyDest fields origBib B = .ok out →
      out = B.filter (fun el => !foundMatch fields origBib el) := by
  intro B
  induction B with
  | nil =>
      intro out h
      rw [show classifyDest fields origBib [] = .ok [] from rfl] at h
      cases h
      rfl
  | cons el rest ih =>
      intro out h
      unfold classifyDest at h
      obtain ⟨similar, hsim, h⟩ := except_bind_ok h
      obtain ⟨restOut, hrest, h⟩ := except_bind_ok h
      have h1 := ih restOut hrest
      cases similar with
      | some m =>
          have hfm : foundMatch fields origBib el = true := by
            unfold foundMatch
            rw [hsim]
          cases h
          simp [List.filter_cons, hfm, h1]
      | none =>
          have hfm : foundMatch fields origBib el = false := by
            unfold foundMatch
            rw [hsim]
          cases h
          simp [List.filter_cons, hfm, h1]

/-! ### Helper lemmas: shape of the hex digest -/

theorem toHexFixed_length (k : Nat) : ∀ n : Nat, (toHexFixed k n).length = k := by
  induction k with
  | zero => intro n; rfl
  | succ k ih =>
      intro n
      unfold toHexFixed
      rw [List.length_append, ih]
      rfl

theorem hexDigit_mem (n : Nat) : hexDigit n ∈ hexAlphabet := by
  unfold hexDigit
  rw [List.getD_eq_getElem?_getD]
  cases h : hexAlphabet[n]? with
  | none => decide
  | some c =>
      rw [Option.getD_some]
      exact List.getElem?_mem h

theorem toHexFixed_mem (k : Nat) : ∀ n : Nat, ∀ c ∈ toHexFixed k n, c ∈ hexAlphabet := by
  induction k with
  | zero => intro n c hc; exact absurd hc (List.not_mem_nil c)
  | succ k ih =>
      intro n c hc
      unfold toHexFixed at hc
      rcases List.mem_append.mp hc with h | h
      · exact ih _ c h
      · rw [List.mem_singleton] at h
        rw [h]
        exact hexDigit_mem _

theorem compressStep_length (st : List Nat) (kw : Nat × Nat) :
    (compressStep st kw).length = st.length := by
  unfold compressStep
  split
  · rfl
  · rfl

theorem foldl_compressStep_length (l : List (Nat × Nat)) :
    ∀ st : List Nat, (l.foldl compressStep st).length = st.length := by
  induction l with
  | nil => intro st; rfl
  | cons kw rest ih =>
      intro st
      rw [List.foldl_cons, ih, compressStep_length]

theorem processBlocks_length (blocks : List (List Nat)) :
    ∀ hs : List Nat, hs.length = 8 → (processBlocks hs blocks).length = 8 := by
  induction blocks with
  | nil => intro hs h; exact h
  | cons blk rest ih =>
      intro hs h
      unfold processBlocks
      apply ih
      rw [List.length_zipWith, foldl_compressStep_length]
      simp [h]

theorem sha256Words_length (msg : List Nat) : (sha256Words msg).length = 8 :=
  processBlocks_length _ H256 rfl

theorem flatMapHex_length (ws : List Nat) :
    (ws.flatMap (toHexFixed 8)).length = 8 * ws.length := by
  induction ws with
  | nil => rfl
  | cons w rest ih =>
      rw [List.flatMap_cons, List.length_append, toHexFixed_length, ih,
        List.length_cons]
      ring

theorem sha256Hex_length (s : String) : (sha256Hex s).length = 64 := by
  show ((sha256Words (utf8Bytes s)).flatMap (toHexFixed 8)).length = 64
  rw [flatMapHex_length, sha256Words_length]

theorem sha256Hex_mem_hex (s : String) : ∀ c ∈ (sha256Hex s).data, c ∈ hexAlphabet := by
  intro c hc
  have hc' : c ∈ (sha256Words (utf8Bytes s)).flatMap (toHexFixed 8) := hc
  obtain ⟨w, _, hcw⟩ := List.mem_flatMap.mp hc'
  exact toHexFixed_mem 8 w c hcw

/-- Equal (defaulted) values on the compared fields give equal fingerprints. -/
theorem getKey_congr (fields : List String) (r₁ r₂ : Record)
    (h : ∀ f ∈ fields, jsGetD r₁ f = jsGetD r₂ f) :
    getKey r₁ fields = getKey r₂ fields := by
  have hmap : fields.map (fun field => jsGetD r₁ field) =
      fields.map (fun field => jsGetD r₂ field) := List.map_congr_left h
  unfold getKey
  rw [hmap]

theorem buildLookupTable_singleton (r : Record) (fields : List String) :
    buildLookupTable [r] fields = [(getKey r fields, r)] := by
  simp [buildLookupTable, tableInsert]

/-- A one-record collection on each side with equal fingerprints is classified
entirely as `Common`, represented by the origin record. -/
theorem hashStrategy_singleton_common (fields : List String) (r₁ r₂ : Record)
    (hk : getKey r₁ fields = getKey r₂ fields) :
    hashStrategy fields [r₁] [r₂] = ⟨[r₁], [], []⟩ := by
  unfold hashStrategy
  rw [buildLookupTable_singleton, buildLookupTable_singleton, ← hk]
  simp [tableGet]

/-! ### Helper lemmas: the hash strategy's buckets -/

/-- The origin-side entry count of the table equals the number of distinct
fingerprints of the collection. -/
theorem table_length_eq_dedup (list : List Record) (fields : List String) :
    (buildLookupTable list fields).length =
      ((list.map (fun el => getKey el fields)).dedup).length := by
  have h1 : (buildLookupTable list fields).length =
      (tableKeys (buildLookupTable list fields)).length :=
    (List.length_map _ _).symm
  have h2 : (tableKeys (buildLookupTable list fields)).toFinset =
      (list.map (fun el => getKey el fields)).toFinset := by
    ext k
    rw [List.mem_toFinset, List.mem_toFinset]
    exact mem_tableKeys_buildLookupTable list fields k
  rw [h1, ← List.toFinset_card_of_nodup (tableKeys_nodup list fields), h2,
    List.card_toFinset]

/-- A filter and its complement split a list's length. -/
theorem length_filter_pair {α : Type} (l : List α) (p : α → Bool) :
    (l.filter p).length + (l.filter (fun a => !p a)).length = l.length :=
  (List.length_eq_length_filter_add p).symm

/-- With no key collisions, the lookup table lists the collection in order. -/
theorem foldl_insert_of_nodup (fields : List String) :
    ∀ (B : List Record) (t : Table),
      (tableKeys t ++ B.map (fun el => getKey el fields)).Nodup →
      B.foldl (fun t el => tableInsert t (getKey el fields) el) t =
        t ++ B.map (fun el => (getKey el fields, el)) := by
  intro B
  induction B with
  | nil => intro t _; simp
  | cons el rest ih =>
      intro t h
      rw [List.foldl_cons]
      have hsplit := List.nodup_append.mp h
      have hkey : getKey el fields ∉ tableKeys t := by
        intro hk
        exact hsplit.2.2 hk (List.mem_cons_self _ _)
      have hins : tableInsert t (getKey el fields) el =
          t ++ [(getKey el fields, el)] := by
        unfold tableInsert
        rw [if_neg]
        intro ha
        exact hkey ((any_key_iff t (getKey el fields)).mp ha)
      rw [hins, ih (t ++ [(getKey el fields, el)])]
      · simp
      · have : tableKeys (t ++ [(getKey el fields, el)]) ++
            rest.map (fun el => getKey el fields) =
            tableKeys t ++ ((el :: rest).map (fun el => getKey el fields)) := by
          unfold tableKeys
          rw [List.map_append, List.map_cons, List.append_assoc]
          rfl
        rw [this]
        exact h

theorem buildLookupTable_of_nodup (B : List Record) (fields : List String)
    (h : (B.map (fun el => getKey el fields)).Nodup) :
    buildLookupTable B fields = B.map (fun el => (getKey el fields, el)) := by
  have := foldl_insert_of_nodup fields B [] (by simpa [tableKeys] using h)
  simpa [buildLookupTable] using this

/-- Searching an empty candidate list returns `undefined` and cannot fail. -/
theorem findSmallestSimilar_nil (element : Record) (fields : List String) :
    findSmallestSimilar element fields [] = .ok none := rfl

/-- With an empty origin collection the destiny pass keeps every record. -/
theorem classifyDest_empty_origin (fields : List String) (B : List Record) :
    classifyDest fields [] B = .ok B := by
  induction B with
  | nil => rfl
  | cons el rest ih =>
      unfold classifyDest
      rw [ih]
      rfl

/-! ### Claim theorems -/

/-- C6: for every pair of collections and every field list, swapping the two
collection arguments of the hash strategy swaps the `OnlyOrigin` and
`OnlyDestiny` buckets (as equal lists) and leaves the size of the `Common`
bucket equal. -/
theorem hash_swap_symmetry (fields : List String) (A B : List Record) :
    (hashStrategy fields B A).OnlyA = (hashStrategy fields A B).OnlyB ∧
    (hashStrategy fields B A).OnlyB = (hashStrategy fields A B).OnlyA ∧
    (hashStrategy fields B A).AB.length = (hashStrategy fields A B).AB.length := by
  refine ⟨rfl, rfl, ?_⟩
  show (((buildLookupTable B fields).filter
      (fun p => (tableGet (buildLookupTable A fields) p.1).isSome)).map (·.2)).length =
    (((buildLookupTable A fields).filter
      (fun p => (tableGet (buildLookupTable B fields) p.1).isSome)).map (·.2)).length
  rw [List.length_map, List.length_map]
  exact common_count_symm (buildLookupTable A fields) (buildLookupTable B fields)
    (tableKeys_nodup A fields) (tableKeys_nodup B fields)

/-- C3 (amended): the hash strategy partitions the de-duplicated origin side:
`Common ++ OnlyOrigin` is a permutation of the fingerprint representatives of
`collectionA` (the values of A's lookup table), no record lies in both, their
total count equals the number of distinct fingerprints of `collectionA`, and
every table entry of `collectionB` whose fingerprint has no counterpart in
`collectionA` has its representative record in `OnlyDestiny`.
(The original claim fails for records eliminated by fingerprint
de-duplication; see the counterexample.) -/
theorem hash_partition_dedup (fields : List String) (A B : List Record) :
    ((hashStrategy fields A B).AB ++ (hashStrategy fields A B).OnlyA).Perm
        ((buildLookupTable A fields).map (·.2)) ∧
    (∀ r : Record,
      ¬(r ∈ (hashStrategy fields A B).AB ∧ r ∈ (hashStrategy fields A B).OnlyA)) ∧
    (hashStrategy fields A B).AB.length + (hashStrategy fields A B).OnlyA.length
        = ((A.map (fun el => getKey el fields)).dedup).length ∧
    (∀ p ∈ buildLookupTable B fields,
      tableGet (buildLookupTable A fields) p.1 = none →
        p.2 ∈ (hashStrategy fields A B).OnlyB) := by
  refine ⟨?_, ?_, ?_, ?_⟩
  · show ((((buildLookupTable A fields).filter
        (fun q => (tableGet (buildLookupTable B fields) q.1).isSome)).map (·.2)) ++
        (((buildLookupTable A fields).filter
        (fun q => !(tableGet (buildLookupTable B fields) q.1).isSome)).map (·.2))).Perm _
    rw [← List.map_append]
    exact (List.filter_append_perm
      (fun q => (tableGet (buildLookupTable B fields) q.1).isSome)
      (buildLookupTable A fields)).map (·.2)
  · rintro r ⟨hab, honly⟩
    obtain ⟨p, hp, hpr⟩ := List.mem_map.mp hab
    obtain ⟨q, hq, hqr⟩ := List.mem_map.mp honly
    obtain ⟨hpA, hpPred⟩ := List.mem_filter.mp hp
    obtain ⟨hqA, hqPred⟩ := List.mem_filter.mp hq
    have hpk := entry_key_buildLookupTable A fields p hpA
    have hqk := entry_key_buildLookupTable A fields q hqA
    rw [hpk, hpr] at hpPred
    rw [hqk, hqr] at hqPred
    rw [hpPred] at hqPred
    exact absurd hqPred (by decide)
  · show (((buildLookupTable A fields).filter
        (fun q => (tableGet (buildLookupTable B fields) q.1).isSome)).map (·.2)).length +
        (((buildLookupTable A fields).filter
        (fun q => !(tableGet (buildLookupTable B fields) q.1).isSome)).map (·.2)).length =
        ((A.map (fun el => getKey el fields)).dedup).length
    rw [List.length_map, List.length_map]
    exact (length_filter_pair (buildLookupTable A fields)
      (fun q => (tableGet (buildLookupTable B fields) q.1).isSome)).trans
      (table_length_eq_dedup A fields)
  · intro p hp hnone
    show p.2 ∈ ((buildLookupTable B fields).filter
        (fun q => !(tableGet (buildLookupTable A fields) q.1).isSome)).map (·.2)
    exact List.mem_map.mpr ⟨p, List.mem_filter.mpr ⟨hp, by rw [hnone]; rfl⟩, rfl⟩

/-- C3 counterexample: with `A = []`, `B = [r₁, r₂]` where the distinct records
`r₁ = {TITLE:"x", key:"a"}` and `r₂ = {TITLE:"x", key:"b"}` share a fingerprint
on `fields = ["TITLE"]`, the record `r₁` is a member of `collectionB` whose
fingerprint has no counterpart in `collectionA` (which is empty), yet `r₁` does
not appear in `OnlyDestiny` (fingerprint de-duplication kept only `r₂`).
This falsifies the claim as stated. -/
theorem hash_partition_counterexample :
    ([("TITLE", "x"), ("key", "a")] : Record) ∈
        ([[("TITLE", "x"), ("key", "a")], [("TITLE", "x"), ("key", "b")]] : List Record) ∧
    tableGet (buildLookupTable [] ["TITLE"])
        (getKey [("TITLE", "x"), ("key", "a")] ["TITLE"]) = none ∧
    ([("TITLE", "x"), ("key", "a")] : Record) ∉
        (hashStrategy ["TITLE"] []
          [[("TITLE", "x"), ("key", "a")], [("TITLE", "x"), ("key", "b")]]).OnlyB ∧
    (hashStrategy ["TITLE"] []
        [[("TITLE", "x"), ("key", "a")], [("TITLE", "x"), ("key", "b")]]).OnlyB =
      [[("TITLE", "x"), ("key", "b")]] := by
  refine ⟨by decide, rfl, ?_, ?_⟩ <;> decide

/-- Witness for C3 at a concrete input: with `A = []` and `B = [{key:"b"}]`,
the only table entry of `B` has no counterpart in `A`, so its record lands in
`OnlyDestiny`. -/
theorem hash_partition_witness :
    ([("key", "b")] : Record) ∈ (hashStrategy ["TITLE"] [] [[("key", "b")]]).OnlyB :=
  (hash_partition_dedup ["TITLE"] [] [[("key", "b")]]).2.2.2
    (getKey [("key", "b")] ["TITLE"], [("key", "b")])
    (by rw [buildLookupTable_singleton]; exact List.mem_singleton.mpr rfl)
    rfl

/-- C5 (amended): with an empty origin collection, the bruteforce strategy
returns `OnlyOrigin = []`, `Common = []` and `OnlyDestiny = collectionB`
unchanged (and never fails); the hash strategy returns `OnlyOrigin = []`,
`Common = []` and `OnlyDestiny` equal to the fingerprint-de-duplicated
`collectionB`, which equals `collectionB` itself whenever the fingerprints of
`collectionB` are pairwise distinct (but not in general; see the
counterexample). -/
theorem empty_origin_buckets (fields : List String) (B : List Record) :
    bruteforceStrategy fields [] B = .ok ⟨[], [], B⟩ ∧
    hashStrategy fields [] B = ⟨[], [], (buildLookupTable B fields).map (·.2)⟩ ∧
    ((B.map (fun el => getKey el fields)).Nodup →
      (hashStrategy fields [] B).OnlyB = B) := by
  have hfilter : List.filter
      (fun q => !(tableGet (buildLookupTable [] fields) q.1).isSome)
      (buildLookupTable B fields) = buildLookupTable B fields :=
    List.filter_eq_self.mpr (fun q _ => rfl)
  have hOnlyB : (hashStrategy fields [] B).OnlyB =
      (buildLookupTable B fields).map (·.2) := by
    show ((buildLookupTable B fields).filter
        (fun q => !(tableGet (buildLookupTable [] fields) q.1).isSome)).map (·.2) =
      (buildLookupTable B fields).map (·.2)
    rw [hfilter]
  refine ⟨?_, ?_, ?_⟩
  · unfold bruteforceStrategy
    rw [classifyDest_empty_origin]
    rfl
  · have hAB : (hashStrategy fields [] B).AB = [] := rfl
    have hOA : (hashStrategy fields [] B).OnlyA = [] := rfl
    calc hashStrategy fields [] B
        = ⟨(hashStrategy fields [] B).AB, (hashStrategy fields [] B).OnlyA,
            (hashStrategy fields [] B).OnlyB⟩ := rfl
      _ = ⟨[], [], (buildLookupTable B fields).map (·.2)⟩ := by
            rw [hAB, hOA, hOnlyB]
  · intro hnd
    rw [hOnlyB, buildLookupTable_of_nodup B fields hnd, List.map_map]
    show B.map (fun el => el) = B
    exact List.map_id' B

/-- C5 counterexample: with `A = []` and `B = [r, r]` (the record
`r = {key:"a"}` listed twice), the hash strategy's `OnlyDestiny` is the
de-duplicated `[r]`, not `collectionB` unchanged — the claim's
"same records, same order, same length" fails for the hash strategy. -/
theorem empty_origin_counterexample :
    (hashStrategy ["TITLE"] [] [[("key", "a")], [("key", "a")]]).OnlyB =
        [[("key", "a")]] ∧
    (hashStrategy ["TITLE"] [] [[("key", "a")], [("key", "a")]]).OnlyB ≠
        [[("key", "a")], [("key", "a")]] := by
  constructor <;> decide

/-- Witness for C5 at a concrete input: one destiny record, distinct
fingerprints trivially, both strategies hand `collectionB` back unchanged. -/
theorem empty_origin_witness :
    bruteforceStrategy ["TITLE"] [] [[("key", "b")]] = .ok ⟨[], [], [[("key", "b")]]⟩ ∧
    (hashStrategy ["TITLE"] [] [[("key", "b")]]).OnlyB = [[("key", "b")]] :=
  ⟨(empty_origin_buckets ["TITLE"] [[("key", "b")]]).1,
   (empty_origin_buckets ["TITLE"] [[("key", "b")]]).2.2 (by simp)⟩

/-- C1 (amended): for a single compared field present on both records, the
candidate is rejected exactly when the normalized edit distance (Levenshtein
distance over the longer length, minimum divisor 1) strictly exceeds the
similarity threshold 0.3: a ratio of exactly 0.3 (and anything below, such as
0.29) is accepted and the candidate is matched; only ratios strictly greater
than 0.3 are rejected. (The original claim asserted that the boundary value
0.30 itself is rejected, which contradicts the strict `>` comparison.) -/
theorem bruteforce_threshold_exclusive (element c : Record) (f : String)
    (ve vc : String) (h1 : jsGet element f = some ve) (h2 : jsGet c f = some vc) :
    findSmallestSimilar element [f] [c] =
      .ok (if similarity (levDist ve vc)
            (max (if ve.length = 0 then 1 else ve.length)
                 (if vc.length = 0 then 1 else vc.length)) > SIMILARITY_RATE
        then none else some c) := by
  have hn : jsLeven (jsGet element f) (jsGet c f) = .ok (levDist ve vc) := by
    rw [h1, h2]
    rfl
  have hm : jsMaxLen element c f =
      .ok (max (if ve.length = 0 then 1 else ve.length)
               (if vc.length = 0 then 1 else vc.length)) := by
    unfold jsMaxLen jsLenOr1
    rw [h1, h2]
    rfl
  have hfirst : tryCandidateFirst element c [f] =
      .ok (if similarity (levDist ve vc)
            (max (if ve.length = 0 then 1 else ve.length)
                 (if vc.length = 0 then 1 else vc.length)) > SIMILARITY_RATE
        then none else some (c, f, levDist ve vc)) := by
    show (do
        let newLeven ← jsLeven (jsGet element f) (jsGet c f)
        let m ← jsMaxLen element c f
        if similarity newLeven m > SIMILARITY_RATE then pure none
        else pure (some (c, f, newLeven))) = _
    rw [hn, ok_bind, hm, ok_bind]
    by_cases hc : similarity (levDist ve vc)
        (max (if ve.length = 0 then 1 else ve.length)
             (if vc.length = 0 then 1 else vc.length)) > SIMILARITY_RATE
    · rw [if_pos hc, if_pos hc]
      rfl
    · rw [if_neg hc, if_neg hc]
      rfl
  have hloop : searchLoop element [f] [c] none =
      .ok (if similarity (levDist ve vc)
            (max (if ve.length = 0 then 1 else ve.length)
                 (if vc.length = 0 then 1 else vc.length)) > SIMILARITY_RATE
        then none else some (c, f, levDist ve vc)) := by
    show (do
        let st₁ ← searchStep element [f] c none
        searchLoop element [f] [] st₁) = _
    rw [show searchStep element [f] c none = tryCandidateFirst element c [f] from rfl,
      hfirst, ok_bind]
    rfl
  unfold findSmallestSimilar
  rw [hloop, ok_bind]
  by_cases hc : similarity (levDist ve vc)
      (max (if ve.length = 0 then 1 else ve.length)
           (if vc.length = 0 then 1 else vc.length)) > SIMILARITY_RATE
  · rw [if_pos hc, if_pos hc]
    rfl
  · rw [if_neg hc, if_neg hc]
    rfl

/-- C1 counterexample: `"aaaaaaaaaa"` versus `"aaaaaaabbb"` (both length 10)
have Levenshtein distance 3, normalized distance exactly 3/10 = 0.30 — and the
candidate IS matched, refuting "the boundary value 0.30 itself is rejected".
A ratio of 0.4 (strictly above the threshold), by contrast, is rejected. -/
theorem bruteforce_boundary_counterexample :
    levDist "aaaaaaaaaa" "aaaaaaabbb" = 3 ∧
    similarity 3 10 = SIMILARITY_RATE ∧
    findSmallestSimilar [("TITLE", "aaaaaaaaaa")] ["TITLE"]
        [[("TITLE", "aaaaaaabbb")]] = .ok (some [("TITLE", "aaaaaaabbb")]) ∧
    findSmallestSimilar [("TITLE", "aaaaaaaaaa")] ["TITLE"]
        [[("TITLE", "aaaaaabbbb")]] = .ok none := by
  refine ⟨by decide, by decide, by decide, by decide⟩

/-- Witness for C1 at the boundary pair: the theorem applied to the concrete
records with normalized distance exactly 0.3, whose `if` evaluates to a
match. -/
theorem bruteforce_threshold_exclusive_witness :
    findSmallestSimilar [("TITLE", "aaaaaaaaaa")] ["TITLE"]
        [[("TITLE", "aaaaaaabbb")]] = .ok (some [("TITLE", "aaaaaaabbb")]) := by
  have h := bruteforce_threshold_exclusive [("TITLE", "aaaaaaaaaa")]
    [("TITLE", "aaaaaaabbb")] "TITLE" "aaaaaaaaaa" "aaaaaaabbb" (by decide) (by decide)
  rw [h]
  decide

/-- C2 (amended): the approximate-match engine cannot fail when every listed
field is present (as a string) in every record of both collections: each
per-record search and the whole strategy return a result. When a listed field
is missing, the engine throws instead of treating the value as an empty string
(see the counterexample); the empty-string defaulting exists only in the hash
strategy's key builder. -/
theorem bruteforce_total_of_fields_present (fields : List String)
    (A B : List Record)
    (hA : ∀ r ∈ A, fieldsPresent r fields)
    (hB : ∀ r ∈ B, fieldsPresent r fields) :
    (∀ el ∈ A, ∃ r, findSmallestSimilar el fields B = .ok r) ∧
    ∃ st, bruteforceStrategy fields A B = .ok st := by
  constructor
  · intro el hel
    exact findSmallestSimilar_total el fields B (hA el hel) hB
  · obtain ⟨out, hout⟩ := classifyOrig_total fields B hB A hA
    obtain ⟨onlyB, honlyB⟩ := classifyDest_total fields A hA B hB
    obtain ⟨ab, onlyA⟩ := out
    refine ⟨⟨ab, onlyA, onlyB⟩, ?_⟩
    unfold bruteforceStrategy
    rw [hout, ok_bind, honlyB]
    rfl

/-- C2 counterexample: a record lacking the listed field `TITLE` makes the
engine throw (`element[field].length` on `undefined`): `findSmallestSimilar`
errors rather than treating the missing value as an empty string, and the
whole bruteforce strategy errors with it — refuting "cannot fail" for
arbitrary well-formed records. -/
theorem bruteforce_missing_field_error :
    findSmallestSimilar [("key", "a")] ["TITLE"] [[("key", "b")]] = .error () ∧
    bruteforceStrategy ["TITLE"] [[("key", "a")]] [[("key", "b")]] = .error () := by
  constructor <;> decide

/-- Witness for C2: all compared fields present on both sides, the engine
returns results. -/
theorem bruteforce_total_witness :
    (∃ r, findSmallestSimilar [("TITLE", "abc")] ["TITLE"] [[("TITLE", "abcd")]] = .ok r) ∧
    ∃ st, bruteforceStrategy ["TITLE"] [[("TITLE", "abc")]] [[("TITLE", "abcd")]] = .ok st :=
  ⟨(bruteforce_total_of_fields_present ["TITLE"] [[("TITLE", "abc")]]
      [[("TITLE", "abcd")]] (by decide) (by decide)).1 [("TITLE", "abc")]
      (List.mem_singleton.mpr rfl),
   (bruteforce_total_of_fields_present ["TITLE"] [[("TITLE", "abc")]]
      [[("TITLE", "abcd")]] (by decide) (by decide)).2⟩

/-- C4: in the bruteforce strategy, `Common` is populated only from the pass
over `collectionA` — `Common` and `OnlyOrigin` are exactly the matched and
unmatched records of `collectionA`, `OnlyDestiny` is exactly the unmatched
records of `collectionB`, and a `collectionB` record that does find a match is
added to no bucket (in particular not to `Common` and not to `OnlyDestiny`). -/
theorem bruteforce_buckets_characterization (fields : List String)
    (A B : List Record) (st : Status)
    (h : bruteforceStrategy fields A B = .ok st) :
    st.AB = A.filter (foundMatch fields B) ∧
    st.OnlyA = A.filter (fun el => !foundMatch fields B el) ∧
    st.OnlyB = B.filter (fun el => !foundMatch fields A el) ∧
    (∀ el ∈ B, foundMatch fields A el = true → el ∉ st.OnlyB) ∧
    (∀ r ∈ st.AB, r ∈ A) := by
  unfold bruteforceStrategy at h
  obtain ⟨origOut, horig, h⟩ := except_bind_ok h
  obtain ⟨ab, onlyA⟩ := origOut
  obtain ⟨onlyB, hdest, h⟩ := except_bind_ok h
  obtain ⟨h1etal, h2etal⟩ := classifyOrig_ok fields B A (ab, onlyA) horig
  have h1 : ab = A.filter (foundMatch fields B) := h1etal
  have h2 : onlyA = A.filter (fun el => !foundMatch fields B el) := h2etal
  have h3 := classifyDest_ok fields A B onlyB hdest
  cases h
  refine ⟨h1, h2, h3, ?_, ?_⟩
  · intro el _ hfm hmem
    have := (List.mem_filter.mp (h3 ▸ hmem)).2
    rw [hfm] at this
    cases this
  · intro r hr
    exact (List.mem_filter.mp (h1 ▸ hr)).1

/-- Witness for C4: `A = [{TITLE:"abc"}]`, `B = [{TITLE:"abcd"}]` (normalized
distance 1/4, a match both ways): the strategy returns
`⟨[{TITLE:"abc"}], [], []⟩` and its buckets satisfy the characterization — in
particular the matched destiny record is in no bucket. -/
theorem bruteforce_buckets_witness :
    (⟨[[("TITLE", "abc")]], [], []⟩ : Status).OnlyB =
      [[("TITLE", "abcd")]].filter
        (fun el => !foundMatch ["TITLE"] [[("TITLE", "abc")]] el) ∧
    ([("TITLE", "abcd")] : Record) ∉ (⟨[[("TITLE", "abc")]], [], []⟩ : Status).OnlyB :=
  ⟨(bruteforce_buckets_characterization ["TITLE"] [[("TITLE", "abc")]]
      [[("TITLE", "abcd")]] ⟨[[("TITLE", "abc")]], [], []⟩ (by decide)).2.2.1,
   (bruteforce_buckets_characterization ["TITLE"] [[("TITLE", "abc")]]
      [[("TITLE", "abcd")]] ⟨[[("TITLE", "abc")]], [], []⟩ (by decide)).2.2.2.1
      [("TITLE", "abcd")] (List.mem_singleton.mpr rfl) (by decide)⟩

/-- C7: a successful `findSmallestSimilar` returns no candidate if and only if
no candidate in the list ever passed the threshold check on its first compared
field; otherwise it returns the best-so-far candidate, which is an element of
the candidate list. -/
theorem findSmallestSimilar_none_iff (element : Record) (fields : List String)
    (list : List Record) (res : Option Record)
    (h : findSmallestSimilar element fields list = .ok res) :
    ((res = none) ↔
      ∀ el ∈ list, firstFieldPasses element el fields = .ok false) ∧
    (∀ r : Record, res = some r → r ∈ list) := by
  unfold findSmallestSimilar at h
  obtain ⟨st, hst, hres⟩ := except_bind_ok h
  have hres' : res = st.map (·.1) := by cases hres; rfl
  obtain ⟨hiff, hrange⟩ := searchLoop_spec element fields list none st hst
  constructor
  · rw [hres', Option.map_eq_none']
    rw [hiff]
    constructor
    · exact fun h0 => h0.2
    · exact fun h0 => ⟨rfl, h0⟩
  · intro r hr
    rw [hres'] at hr
    obtain ⟨v, hv, hv1⟩ := Option.map_eq_some'.mp hr
    obtain ⟨sm, c, d⟩ := v
    rcases hrange sm ⟨c, d, hv⟩ with hfrom | hmem
    · obtain ⟨c', d', hcontra⟩ := hfrom
      cases hcontra
    · rw [← hv1]
      exact hmem

/-- Witness for C7: at `element = {TITLE:"ab"}` the candidate `{TITLE:"zzzz"}`
(normalized distance 1) fails the first-field check, extracted from a search
that returned `undefined`; and a returned best candidate is in the list. -/
theorem findSmallestSimilar_none_iff_witness :
    firstFieldPasses [("TITLE", "ab")] [("TITLE", "zzzz")] ["TITLE"] = .ok false ∧
    ([("TITLE", "ab")] : Record) ∈ ([[("TITLE", "ab")]] : List Record) :=
  ⟨(findSmallestSimilar_none_iff [("TITLE", "ab")] ["TITLE"] [[("TITLE", "zzzz")]]
      none (by decide)).1.mp rfl [("TITLE", "zzzz")] (List.mem_singleton.mpr rfl),
   (findSmallestSimilar_none_iff [("TITLE", "ab")] ["TITLE"] [[("TITLE", "ab")]]
      (some [("TITLE", "ab")]) (by decide)).2 [("TITLE", "ab")] rfl⟩

/-- C8: the fingerprint of a record is the 256-bit (64 lowercase hex digits)
digest of the record's values for the listed fields (empty string when a field
is absent) joined by the fixed delimiter `'###'`; consequently any two records
with identical (defaulted) values on the listed fields — whatever other fields
they contain — produce identical fingerprints. -/
theorem fingerprint_hex_stability (el : Record) (fields : List String) :
    getKey el fields =
      sha256Hex (String.intercalate "###"
        (fields.map (fun field => jsGetD el field))) ∧
    (getKey el fields).length = 64 ∧
    (∀ c ∈ (getKey el fields).data, c ∈ hexAlphabet) ∧
    ∀ el₂ : Record, (∀ f ∈ fields, jsGetD el f = jsGetD el₂ f) →
      getKey el fields = getKey el₂ fields :=
  ⟨rfl, sha256Hex_length _, sha256Hex_mem_hex _, fun el₂ h => getKey_congr fields el el₂ h⟩

/-- Witness for C8 at concrete records: `{TITLE: "x", key: "a"}` and
`{TITLE: "x", note: "n"}` agree on the compared field `TITLE`, so their
fingerprints coincide, and the fingerprint has 64 characters. -/
theorem fingerprint_hex_stability_witness :
    getKey [("TITLE", "x"), ("key", "a")] ["TITLE"] =
      getKey [("TITLE", "x"), ("note", "n")] ["TITLE"] ∧
    (getKey [("TITLE", "x"), ("key", "a")] ["TITLE"]).length = 64 :=
  ⟨(fingerprint_hex_stability [("TITLE", "x"), ("key", "a")] ["TITLE"]).2.2.2
      [("TITLE", "x"), ("note", "n")] (by decide),
   (fingerprint_hex_stability [("TITLE", "x"), ("key", "a")] ["TITLE"]).2.1⟩

/-- C10: a record whose value for a listed field is the empty string and a
record lacking that field entirely (more generally: any two records with equal
defaulted values on the listed fields) get the same fingerprint, and the hash
strategy classifies them as the same logical entry (`Common`, represented by
the origin record). -/
theorem getKey_empty_vs_absent (fields : List String) (r₁ r₂ : Record)
    (h : ∀ f ∈ fields, jsGetD r₁ f = jsGetD r₂ f) :
    getKey r₁ fields = getKey r₂ fields ∧
    hashStrategy fields [r₁] [r₂] = ⟨[r₁], [], []⟩ :=
  ⟨getKey_congr fields r₁ r₂ h,
   hashStrategy_singleton_common fields r₁ r₂ (getKey_congr fields r₁ r₂ h)⟩

/-- Witness for C10 at concrete records: `{TITLE: ""}` (empty value) versus
`{key: "b"}` (field absent): same fingerprint, classified as `Common`. -/
theorem getKey_empty_vs_absent_witness :
    getKey [("TITLE", "")] ["TITLE"] = getKey [("key", "b")] ["TITLE"] ∧
    hashStrategy ["TITLE"] [[("TITLE", "")]] [[("key", "b")]] =
      ⟨[[("TITLE", "")]], [], []⟩ :=
  getKey_empty_vs_absent ["TITLE"] [("TITLE", "")] [("key", "b")] (by decide)

/-- C9: the field normalizer returns a list of the same length and order in
which the identifier field name `"key"` passes through unchanged and every
other name is upper-cased; it is a total (pure, error-free) function. -/
theorem normalizeFields_spec (fields : List String) :
    (normalizeFields fields).length = fields.length ∧
    ∀ i : Nat, (normalizeFields fields)[i]? =
      (fields[i]?).map (fun f => if f = "key" then f else f.toUpper) := by
  constructor
  · exact List.length_map _ _
  · intro i
    unfold normalizeFields
    rw [List.getElem?_map]
    cases hf : fields[i]? with
    | none => rfl
    | some f =>
        simp only [Option.map_some']
        by_cases h : f = "key"
        · rw [if_pos (beq_iff_eq.mpr h), if_pos h]
        · rw [if_neg (fun hb => h (eq_of_beq hb)), if_neg h]

end Diffbib
